import Mathlib

/-!
Verification of the troposphere CLI stack-deployment core (`trop/cli.py`):
the parameter reconciler `update_params`, the event tailer `_events`, the
previous-parameter lookup `_parameters`, the template publisher
`upload_template_to_s3` and the request builder `get_stack_definition`.

Python dicts are modelled as insertion-ordered association lists
(`List (String × α)`): updating an existing key keeps its position, a new
key is appended.  Raised exceptions are modelled with `Except`/`Option`.
Timestamps are integers (seconds); remote responses are passed in as data.
-/

/-- Insertion-ordered association list lookup (first matching key). -/
def lookupKey {α : Type} : List (String × α) → String → Option α
  | [], _ => none
  | (k, v) :: rest, key => if k = key then some v else lookupKey rest key

/-- Python `key in d` for the association-list dict model. -/
def containsKey {α : Type} (d : List (String × α)) (key : String) : Bool :=
  (lookupKey d key).isSome

/-- Python `d[k] = v`: update in place if the key exists, else append. -/
def insertOrUpdate {α : Type} : List (String × α) → String → α → List (String × α)
  | [], k, v => [(k, v)]
  | (k0, v0) :: rest, k, v =>
    if k0 = k then (k0, v) :: rest else (k0, v0) :: insertOrUpdate rest k v

/-- The keys of a dict, in insertion order. -/
def keys {α : Type} (d : List (String × α)) : List String :=
  d.map Prod.fst

/-- First-occurrence deduplication of a key list. -/
def dedupKeys : List String → List String
  | [] => []
  | k :: rest => k :: (dedupKeys rest).filter (fun x => !(x = k : Bool))

/-- Last-write-wins lookup over a raw pair list: the value attached to the
last element whose key matches. -/
def lastLookupBy {α β : Type} (key : β → String) (val : β → α) : List β → String → Option α
  | [], _ => none
  | b :: rest, k =>
    match lastLookupBy key val rest k with
    | some v => some v
    | none => if key b = k then some (val b) else none

/-- Last-write-wins lookup for `(key, value)` pair lists. -/
def lastLookup {α : Type} (pairs : List (String × α)) (k : String) : Option α :=
  lastLookupBy Prod.fst Prod.snd pairs k

/-- Python dict comprehension over a pair list: builds an insertion-ordered
dict, later pairs overwriting earlier ones in place. -/
def dictOf {α : Type} (pairs : List (String × α)) : List (String × α) :=
  pairs.foldl (fun d kv => insertOrUpdate d kv.1 kv.2) []

/-- A troposphere template: its declared parameter names (in declared order)
and its serialized json form. -/
structure Template where
  parameters : List String
  to_json : String
deriving DecidableEq

/-- One entry of the reconciled parameter list sent to CloudFormation.
`ParameterValue = none` models the absence of the `ParameterValue` field. -/
structure Param where
  ParameterKey : String
  UsePreviousValue : Bool
  ParameterValue : Option String
deriving DecidableEq

/-- `parameters_dict` as `update_params` builds it: every declared name
mapped to `None`, then updated with the dict comprehension over the
caller-supplied pairs (values wrapped in `some`). -/
def buildParametersDict (template : Template) (params : List (String × String)) :
    List (String × Option String) :=
  let parameters_dict :=
    template.parameters.foldl (fun d key => insertOrUpdate d key none) []
  (dictOf params).foldl (fun d kv => insertOrUpdate d kv.1 (some kv.2)) parameters_dict

/-- The body of the loop in `update_params`, for one `(key, value)` item of
`parameters_dict`: skip (`continue`) when the value is `None` and the key is
not in `previous`; otherwise append the entry, with
`UsePreviousValue = (value is None and key in previous)` and the
`ParameterValue` field present exactly when the value is not `None`. -/
def updateParamsStep (previous : List (String × String)) (ps : List Param)
    (kv : String × Option String) : List Param :=
  if kv.2.isNone && !(containsKey previous kv.1) then ps
  else
    ps ++ [{ ParameterKey := kv.1,
             UsePreviousValue := kv.2.isNone && containsKey previous kv.1,
             ParameterValue := kv.2 }]

/-- `update_params(template, params, previous)` from `trop/cli.py`: build
`parameters_dict`, then run the emission loop over its items. -/
def update_params (template : Template) (params : List (String × String))
    (previous : List (String × String)) : List Param :=
  (buildParametersDict template params).foldl (updateParamsStep previous) []

/-- The pending value `update_params` associates to a key: the last override
value when the key is overridden, `some none` (unset) when it is merely
declared, `none` (absent from the union) otherwise. -/
def pendingLookup (template : Template) (params : List (String × String))
    (k : String) : Option (Option String) :=
  match lastLookup params k with
  | some v => some (some v)
  | none => if k ∈ template.parameters then some none else none

/-- Python `s.endswith(suffix)`, modelled over the character list: the last
`suffix.length` characters of `s` equal `suffix`. -/
def strEndsWith (s suffix : String) : Bool :=
  s.data.drop (s.data.length - suffix.data.length) == suffix.data

/-- One stack event as returned by `describe_stack_events`.  The timestamp is
an integer number of seconds. -/
structure StackEvent where
  EventId : String
  Timestamp : Int
  LogicalResourceId : String
  ResourceStatus : String
  ResourceStatusReason : Option String
deriving DecidableEq

/-- The body of the event loop for one event, on state
`(seen, emitted so far)`: skip (without touching `seen`) when the timestamp
is older than `now - 2`; otherwise emit unless already seen, then add the
event id to the `seen` set. -/
def eventsStep (now : Int) (st : List String × List StackEvent) (event : StackEvent) :
    List String × List StackEvent :=
  if event.Timestamp < now - 2 then st
  else if st.1.contains event.EventId then st
  else (st.1 ++ [event.EventId], st.2 ++ [event])

/-- One pass of the poll loop over the event list of one
`describe_stack_events` response (delivered most-recent-first, processed
reversed): returns the updated `seen` set and the events emitted this pass.
Line formatting is not modelled; emission is at the event level. -/
def passEvents (now : Int) (seen : List String) (events : List StackEvent) :
    List String × List StackEvent :=
  events.reverse.foldl (eventsStep now) (seen, [])

/-- The outcome of a tail session on a finite trace of poll responses.
`finished = false` means the trace was exhausted with the loop still
running.  `sleeps` counts the `time.sleep(1)` calls made. -/
structure TailResult where
  emitted : List StackEvent
  seen : List String
  sleeps : Nat
  finished : Bool
deriving DecidableEq

/-- The poll loop of `_events`, run against a trace of responses: each poll
supplies the stack status from `describe_stacks` and the event list from
`describe_stack_events`.  After a pass the loop breaks when the status ends
with `COMPLETE`, else sleeps one second and repeats. -/
def eventsLoop (now : Int) (seen : List String) :
    List (String × List StackEvent) → TailResult
  | [] => { emitted := [], seen := seen, sleeps := 0, finished := false }
  | (status, events) :: rest =>
    let p := passEvents now seen events
    if strEndsWith status "COMPLETE" then
      { emitted := p.2, seen := p.1, sleeps := 0, finished := true }
    else
      let r := eventsLoop now p.1 rest
      { emitted := p.2 ++ r.emitted, seen := r.seen,
        sleeps := r.sleeps + 1, finished := r.finished }

/-- `_events(clients, name)` from `trop/cli.py`: capture `now` once, start
with an empty `seen` set, and run the poll loop. -/
def _events (now : Int) (polls : List (String × List StackEvent)) : TailResult :=
  eventsLoop now [] polls

/-- One `describe_stacks` response for the first stack: either a raised
`ClientError` (for instance, stack not found) or a stack with its status and
its parameter list. -/
inductive DescribeResult where
  | clientError
  | ok (status : String) (parameters : List (String × String))
deriving DecidableEq

/-- The two exception kinds `get_stack_definition` catches around the
previous-parameter lookup. -/
inductive LookupError where
  | clientError
  | assertionError
deriving DecidableEq

/-- `_parameters(clients, name)` from `trop/cli.py`: `describe_stacks` may
raise `ClientError`; the assertion rejects status `DELETE_COMPLETE`;
otherwise the stack's parameters are returned as a dict keyed by
`ParameterKey`. -/
def _parameters (resp : DescribeResult) : Except LookupError (List (String × String)) :=
  match resp with
  | .clientError => .error .clientError
  | .ok status ps =>
    if status = "DELETE_COMPLETE" then .error .assertionError
    else .ok (dictOf ps)

/-- The blob store's contents: the objects written, as
`(bucket, key, body)` triples in write order. -/
structure S3State where
  objects : List (String × String × String)
deriving DecidableEq

/-- `s3_client.put_object(Body, Bucket, Key)`. -/
def put_object (s : S3State) (body bucket key : String) : S3State :=
  { objects := s.objects ++ [(bucket, key, body)] }

/-- `upload_template_to_s3` from `trop/cli.py`: write the serialized
template under key `"{stack_name}.template"` first, then resolve the
bucket's location to build the URL.  `locationOf bucket = none` models
`get_bucket_location` raising; the returned URL is then `none` (the
exception propagates) but the blob store state keeps the write. -/
def upload_template_to_s3 (locationOf : String → Option String) (s : S3State)
    (stack_name : String) (template : String) (template_bucket : String) :
    S3State × Option String :=
  let template_key := stack_name ++ ".template"
  let s2 := put_object s template template_bucket template_key
  match locationOf template_bucket with
  | none => (s2, none)
  | some loc =>
    (s2, some ("https://s3-" ++ loc ++ ".amazonaws.com/" ++
               template_bucket ++ "/" ++ template_key))

/-- The create/update request `get_stack_definition` builds.
`Capabilities = none` models the absence of the `Capabilities` key. -/
structure StackDefinition where
  StackName : String
  TemplateURL : String
  Parameters : List Param
  Capabilities : Option (List String)
deriving DecidableEq

/-- `get_stack_definition` from `trop/cli.py`: upload the serialized
template (exceptions propagate, so the definition is `none` when the upload
raises), recover a failed previous-parameter lookup into an empty dict,
reconcile the parameters, and attach `Capabilities=[capability]` only when a
capability flag was given. -/
def get_stack_definition (locationOf : String → Option String) (s3 : S3State)
    (template : Template) (name : String) (parameter : List (String × String))
    (capability : Option String) (bucket : String) (describe : DescribeResult) :
    S3State × Option StackDefinition :=
  let up := upload_template_to_s3 locationOf s3 name template.to_json bucket
  match up.2 with
  | none => (up.1, none)
  | some template_url =>
    let previous_params :=
      match _parameters describe with
      | .error _ => []
      | .ok ps => ps
    (up.1, some
      { StackName := name,
        TemplateURL := template_url,
        Parameters := update_params template parameter previous_params,
        Capabilities :=
          match capability with
          | none => none
          | some c => some [c] })

/-! ## Dictionary lemmas -/

theorem lookupKey_insertOrUpdate {α : Type} (d : List (String × α)) (k : String) (v : α)
    (key : String) :
    lookupKey (insertOrUpdate d k v) key
      = if k = key then some v else lookupKey d key := by
  induction d with
  | nil => simp [insertOrUpdate, lookupKey]
  | cons hd tl ih =>
    obtain ⟨k0, v0⟩ := hd
    by_cases h0 : k0 = k
    · subst h0
      by_cases h1 : k0 = key <;> simp [insertOrUpdate, lookupKey, h1]
    · by_cases h1 : k0 = key
      · subst h1
        have hk : ¬(k = k0) := fun h => h0 h.symm
        simp [insertOrUpdate, h0, lookupKey, hk]
      · simp [insertOrUpdate, h0, lookupKey, h1, ih]

theorem containsKey_insertOrUpdate {α : Type} (d : List (String × α)) (k : String) (v : α)
    (key : String) :
    containsKey (insertOrUpdate d k v) key
      = ((key = k : Bool) || containsKey d key) := by
  by_cases h : k = key
  · subst h
    simp [containsKey, lookupKey_insertOrUpdate]
  · have hk : ¬(key = k) := fun hh => h hh.symm
    simp [containsKey, lookupKey_insertOrUpdate, h, hk]

theorem keys_insertOrUpdate {α : Type} (d : List (String × α)) (k : String) (v : α) :
    keys (insertOrUpdate d k v)
      = if containsKey d k then keys d else keys d ++ [k] := by
  induction d with
  | nil => simp [insertOrUpdate, keys, containsKey, lookupKey]
  | cons hd tl ih =>
    obtain ⟨k0, v0⟩ := hd
    by_cases h0 : k0 = k
    · subst h0
      simp [insertOrUpdate, keys, containsKey, lookupKey]
    · have h1 : insertOrUpdate ((k0, v0) :: tl) k v = (k0, v0) :: insertOrUpdate tl k v := by
        simp [insertOrUpdate, h0]
      have h2 : containsKey ((k0, v0) :: tl) k = containsKey tl k := by
        simp [containsKey, lookupKey, h0]
      rw [h1, h2]
      by_cases hc : containsKey tl k
      · simp only [keys, List.map_cons] at ih ⊢
        simp [ih, hc]
      · simp only [keys, List.map_cons] at ih ⊢
        simp [ih, hc]

theorem containsKey_eq_true_iff {α : Type} (d : List (String × α)) (key : String) :
    containsKey d key = true ↔ key ∈ keys d := by
  induction d with
  | nil => simp [containsKey, lookupKey, keys]
  | cons hd tl ih =>
    obtain ⟨k0, v0⟩ := hd
    by_cases h0 : k0 = key
    · subst h0
      simp [containsKey, lookupKey, keys]
    · simp [containsKey, lookupKey, h0, keys, Ne.symm h0] at ih ⊢
      exact ih

theorem lookupKey_foldl_insert {α β : Type} (key : β → String) (val : β → α)
    (l : List β) (init : List (String × α)) (k : String) :
    lookupKey (l.foldl (fun d b => insertOrUpdate d (key b) (val b)) init) k
      = match lastLookupBy key val l k with
        | some v => some v
        | none => lookupKey init k := by
  induction l generalizing init with
  | nil => simp [lastLookupBy]
  | cons b rest ih =>
    simp only [List.foldl_cons, ih, lastLookupBy]
    cases h : lastLookupBy key val rest k with
    | some v => simp
    | none =>
      simp only []
      rw [lookupKey_insertOrUpdate]
      by_cases hb : key b = k <;> simp [hb]

theorem keys_foldl_insert {α β : Type} (key : β → String) (val : β → α)
    (l : List β) (init : List (String × α)) :
    keys (l.foldl (fun d b => insertOrUpdate d (key b) (val b)) init)
      = keys init ++ (dedupKeys (l.map key)).filter (fun k => !(containsKey init k)) := by
  induction l generalizing init with
  | nil => simp [dedupKeys]
  | cons b rest ih =>
    simp only [List.foldl_cons, ih, List.map_cons, dedupKeys]
    rw [keys_insertOrUpdate]
    have hfb : (fun k => !(containsKey (insertOrUpdate init (key b) (val b)) k))
        = (fun k => !(containsKey init k) && !(k = key b : Bool)) := by
      funext x
      rw [containsKey_insertOrUpdate]
      cases hx : (x = key b : Bool) <;> simp [hx]
    rw [hfb, List.filter_cons, ← List.filter_filter]
    by_cases hc : containsKey init (key b)
    · simp [hc]
    · simp only [hc, Bool.not_false, if_pos]
      simp [List.append_assoc]

theorem lastLookupBy_map_val {α γ β : Type} (key : β → String) (val : β → α) (f : α → γ)
    (l : List β) (k : String) :
    lastLookupBy key (fun b => f (val b)) l k = (lastLookupBy key val l k).map f := by
  induction l with
  | nil => simp [lastLookupBy]
  | cons b rest ih =>
    simp only [lastLookupBy, ih]
    cases h : lastLookupBy key val rest k with
    | some v => simp
    | none =>
      by_cases hb : key b = k <;> simp [hb]

theorem lastLookupBy_const {α β : Type} (key : β → String) (c : α)
    (l : List β) (k : String) :
    lastLookupBy key (fun _ => c) l k
      = if k ∈ l.map key then some c else none := by
  induction l with
  | nil => simp [lastLookupBy]
  | cons b rest ih =>
    simp only [lastLookupBy, ih, List.map_cons, List.mem_cons]
    by_cases hm : k ∈ rest.map key
    · simp [hm]
    · by_cases hb : key b = k
      · simp [hm, hb]
      · have hkb : ¬(k = key b) := fun h => hb h.symm
        simp [hm, hb, hkb]

theorem lastLookupBy_eq_none_of_not_mem {α β : Type} (key : β → String) (val : β → α)
    (l : List β) (k : String) (h : k ∉ l.map key) :
    lastLookupBy key val l k = none := by
  induction l with
  | nil => simp [lastLookupBy]
  | cons b rest ih =>
    simp only [List.map_cons, List.mem_cons, not_or] at h
    have hb : ¬(key b = k) := fun hh => h.1 hh.symm
    simp [lastLookupBy, ih h.2, hb]

theorem lookupKey_eq_none_of_not_mem {α : Type} (d : List (String × α)) (k : String)
    (h : k ∉ keys d) :
    lookupKey d k = none := by
  induction d with
  | nil => simp [lookupKey]
  | cons hd tl ih =>
    obtain ⟨k0, v0⟩ := hd
    simp only [keys, List.map_cons, List.mem_cons, not_or] at h
    have : ¬(k0 = k) := fun hh => h.1 hh.symm
    simp [lookupKey, this]
    exact ih (by simpa [keys] using h.2)

theorem lastLookupBy_eq_lookupKey {α : Type} (d : List (String × α)) (k : String)
    (h : (keys d).Nodup) :
    lastLookupBy Prod.fst Prod.snd d k = lookupKey d k := by
  induction d with
  | nil => simp [lastLookupBy, lookupKey]
  | cons hd tl ih =>
    obtain ⟨k0, v0⟩ := hd
    simp only [keys, List.map_cons, List.nodup_cons] at h
    by_cases h0 : k0 = k
    · subst h0
      have hn : lastLookupBy Prod.fst Prod.snd tl k0 = none :=
        lastLookupBy_eq_none_of_not_mem _ _ _ _ h.1
      simp [lastLookupBy, lookupKey, hn]
    · simp only [lastLookupBy, lookupKey, if_neg h0]
      rw [ih h.2]
      cases hl : lookupKey tl k with
      | some v => simp
      | none => simp [h0]

theorem mem_dedupKeys (l : List String) (k : String) :
    k ∈ dedupKeys l ↔ k ∈ l := by
  induction l with
  | nil => simp [dedupKeys]
  | cons b rest ih =>
    simp only [dedupKeys, List.mem_cons, List.mem_filter, ih]
    constructor
    · rintro (h | ⟨h, _⟩)
      · exact Or.inl h
      · exact Or.inr h
    · rintro (h | h)
      · exact Or.inl h
      · by_cases hb : k = b
        · exact Or.inl hb
        · exact Or.inr ⟨h, by simp [hb]⟩

theorem dedupKeys_nodup (l : List String) : (dedupKeys l).Nodup := by
  induction l with
  | nil => simp [dedupKeys]
  | cons b rest ih =>
    simp only [dedupKeys, List.nodup_cons]
    constructor
    · intro hmem
      simp [List.mem_filter] at hmem
    · exact List.Nodup.filter _ ih

theorem dedupKeys_eq_self (l : List String) (h : l.Nodup) : dedupKeys l = l := by
  induction l with
  | nil => rfl
  | cons b rest ih =>
    simp only [List.nodup_cons] at h
    simp only [dedupKeys, ih h.2]
    congr 1
    rw [List.filter_eq_self]
    intro a ha
    have : ¬(a = b) := fun hh => h.1 (hh ▸ ha)
    simp [this]

theorem mem_of_lookupKey_eq_some {α : Type} (d : List (String × α)) (k : String) (v : α)
    (h : lookupKey d k = some v) : (k, v) ∈ d := by
  induction d with
  | nil => simp [lookupKey] at h
  | cons hd tl ih =>
    obtain ⟨k0, v0⟩ := hd
    by_cases h0 : k0 = k
    · subst h0
      simp [lookupKey] at h
      simp [h]
    · simp only [lookupKey, if_neg h0] at h
      exact List.mem_cons_of_mem _ (ih h)

theorem lookupKey_eq_some_of_mem {α : Type} (d : List (String × α)) (k : String) (v : α)
    (hnd : (keys d).Nodup) (h : (k, v) ∈ d) : lookupKey d k = some v := by
  induction d with
  | nil => simp at h
  | cons hd tl ih =>
    obtain ⟨k0, v0⟩ := hd
    simp only [keys, List.map_cons, List.nodup_cons] at hnd
    rcases List.mem_cons.mp h with h1 | h1
    · have hk : k0 = k := (Prod.ext_iff.mp h1).1.symm
      have hv : v0 = v := (Prod.ext_iff.mp h1).2.symm
      subst hk hv
      simp [lookupKey]
    · have hk0 : ¬(k0 = k) := by
        intro hh
        subst hh
        exact hnd.1 (by simpa [keys] using List.mem_map_of_mem Prod.fst h1)
      simp only [lookupKey, if_neg hk0]
      exact ih (by simpa [keys] using hnd.2) h1

theorem containsKey_eq_decide {α : Type} (d : List (String × α)) (k : String) :
    containsKey d k = decide (k ∈ keys d) := by
  by_cases h : k ∈ keys d
  · simp [h, (containsKey_eq_true_iff d k).mpr h]
  · have hne : containsKey d k ≠ true := fun hc => h ((containsKey_eq_true_iff d k).mp hc)
    simp [h, Bool.eq_false_iff.mpr hne]

/-! ## The `parameters_dict` built by `update_params` -/

theorem lookupKey_buildParametersDict (t : Template) (ps : List (String × String))
    (k : String) :
    lookupKey (buildParametersDict t ps) k = pendingLookup t ps k := by
  unfold buildParametersDict
  rw [lookupKey_foldl_insert Prod.fst (fun kv => some kv.2)]
  rw [lookupKey_foldl_insert (fun key => key) (fun _ => none)]
  have hmap : lastLookupBy Prod.fst (fun kv => some kv.2) (dictOf ps) k
      = (lastLookupBy Prod.fst Prod.snd (dictOf ps) k).map some :=
    lastLookupBy_map_val Prod.fst Prod.snd some (dictOf ps) k
  have hnodup : (keys (dictOf ps)).Nodup := by
    unfold dictOf
    rw [keys_foldl_insert Prod.fst Prod.snd]
    simp only [keys, List.map_nil, List.nil_append]
    have : ∀ x : String, (!(containsKey ([] : List (String × String)) x)) = true := by
      intro x
      simp [containsKey, lookupKey]
    exact List.Nodup.filter _ (dedupKeys_nodup _)
  have hdict : lastLookupBy Prod.fst Prod.snd (dictOf ps) k = lastLookup ps k := by
    rw [lastLookupBy_eq_lookupKey _ _ hnodup]
    show lookupKey (ps.foldl (fun d kv => insertOrUpdate d kv.1 kv.2) []) k = _
    rw [lookupKey_foldl_insert Prod.fst Prod.snd]
    cases h : lastLookupBy Prod.fst Prod.snd ps k with
    | some v => simp [lastLookup, h]
    | none => simp [lastLookup, h, lookupKey]
  rw [hmap, hdict]
  rw [lastLookupBy_const]
  simp only [List.map_id_fun', id]
  unfold pendingLookup
  cases h : lastLookup ps k with
  | some v => simp
  | none =>
    simp only [Option.map_none]
    by_cases hm : k ∈ t.parameters <;> simp [hm, lookupKey]

theorem keys_buildParametersDict (t : Template) (ps : List (String × String)) :
    keys (buildParametersDict t ps)
      = dedupKeys t.parameters
        ++ (dedupKeys (ps.map Prod.fst)).filter (fun k => !(k ∈ t.parameters : Bool)) := by
  unfold buildParametersDict
  rw [keys_foldl_insert Prod.fst (fun kv => some kv.2)]
  have hpd0 : keys (t.parameters.foldl
        (fun d key => insertOrUpdate d key (none : Option String)) [])
      = dedupKeys t.parameters := by
    rw [keys_foldl_insert (fun key => key) (fun _ => (none : Option String))]
    simp [keys, containsKey, lookupKey]
  have hkdict : keys (dictOf ps) = dedupKeys (ps.map Prod.fst) := by
    unfold dictOf
    rw [keys_foldl_insert Prod.fst Prod.snd]
    simp [keys, containsKey, lookupKey]
  rw [hpd0]
  have hmapfst : (dictOf ps).map Prod.fst = dedupKeys (ps.map Prod.fst) := hkdict
  rw [hmapfst, dedupKeys_eq_self _ (dedupKeys_nodup _)]
  congr 1
  apply List.filter_congr
  intro x _
  rw [containsKey_eq_decide, hpd0]
  have : x ∈ dedupKeys t.parameters ↔ x ∈ t.parameters := mem_dedupKeys _ _
  by_cases hx : x ∈ t.parameters
  · simp [hx, this.mpr hx]
  · have h1 : x ∉ dedupKeys t.parameters := fun hc => hx (this.mp hc)
    simp [hx, h1]

theorem nodup_keys_buildParametersDict (t : Template) (ps : List (String × String)) :
    (keys (buildParametersDict t ps)).Nodup := by
  rw [keys_buildParametersDict]
  apply List.Nodup.append
  · exact dedupKeys_nodup _
  · exact List.Nodup.filter _ (dedupKeys_nodup _)
  · intro x hx1 hx2
    have hmem : x ∈ t.parameters := (mem_dedupKeys _ _).mp hx1
    have := List.mem_filter.mp hx2
    simp [hmem] at this

/-! ## The emission loop of `update_params` -/

theorem updateParamsStep_foldl_acc (previous : List (String × String))
    (pd : List (String × Option String)) (acc : List Param) :
    pd.foldl (updateParamsStep previous) acc
      = acc ++ pd.foldl (updateParamsStep previous) [] := by
  induction pd generalizing acc with
  | nil => simp
  | cons kv rest ih =>
    simp only [List.foldl_cons]
    by_cases h : (kv.2.isNone && !(containsKey previous kv.1)) = true
    · simp only [updateParamsStep, if_pos h]
      exact ih acc
    · simp only [updateParamsStep, if_neg h]
      rw [ih (acc ++ _), ih ([] ++ _)]
      simp

theorem mem_foldl_updateParamsStep (previous : List (String × String))
    (pd : List (String × Option String)) (p : Param) :
    p ∈ pd.foldl (updateParamsStep previous) []
      ↔ ∃ kv, kv ∈ pd ∧ (kv.2.isNone && !(containsKey previous kv.1)) = false
          ∧ p = { ParameterKey := kv.1,
                  UsePreviousValue := kv.2.isNone && containsKey previous kv.1,
                  ParameterValue := kv.2 } := by
  induction pd with
  | nil => simp
  | cons kv rest ih =>
    rw [List.foldl_cons, updateParamsStep_foldl_acc, List.mem_append]
    constructor
    · rintro (h | h)
      · by_cases hc : (kv.2.isNone && !(containsKey previous kv.1)) = true
        · simp [updateParamsStep, hc] at h
        · simp only [updateParamsStep, if_neg hc, List.nil_append,
            List.mem_singleton] at h
          exact ⟨kv, List.mem_cons_self .., Bool.eq_false_iff.mpr hc, h⟩
      · obtain ⟨kv2, hm, hcond, hp⟩ := ih.mp h
        exact ⟨kv2, List.mem_cons_of_mem _ hm, hcond, hp⟩
    · rintro ⟨kv2, hm, hcond, hp⟩
      rcases List.mem_cons.mp hm with h1 | h1
      · subst h1
        left
        simp [updateParamsStep, hcond, hp]
      · right
        exact ih.mpr ⟨kv2, h1, hcond, hp⟩

theorem map_key_foldl_updateParamsStep (previous : List (String × String))
    (q : String → Bool) :
    ∀ pd : List (String × Option String),
    (∀ kv ∈ pd, (!(kv.2.isNone && !(containsKey previous kv.1))) = q kv.1) →
    (pd.foldl (updateParamsStep previous) []).map Param.ParameterKey
      = (keys pd).filter q := by
  intro pd
  induction pd with
  | nil => intro _; simp [keys]
  | cons kv rest ih =>
    intro hq
    have hkv := hq kv (List.mem_cons_self ..)
    have hrest : ∀ kv2 ∈ rest, (!(kv2.2.isNone && !(containsKey previous kv2.1))) = q kv2.1 :=
      fun kv2 hm => hq kv2 (List.mem_cons_of_mem _ hm)
    rw [List.foldl_cons, updateParamsStep_foldl_acc]
    have hkeys : keys (kv :: rest) = kv.1 :: keys rest := by simp [keys]
    rw [hkeys, List.filter_cons]
    by_cases hc : (kv.2.isNone && !(containsKey previous kv.1)) = true
    · have hqf : q kv.1 = false := by
        rw [← hkv, hc]
        rfl
      simp only [updateParamsStep, if_pos hc, List.nil_append, hqf, ih hrest]
      simp
    · have hqf : q kv.1 = true := by
        rw [← hkv, Bool.eq_false_iff.mpr hc]
        rfl
      simp only [updateParamsStep, if_neg hc, List.nil_append, hqf, if_pos]
      simp [ih hrest]

/-! ## Characterization of `update_params` -/

theorem mem_update_params (t : Template) (ps previous : List (String × String))
    (p : Param) :
    p ∈ update_params t ps previous
      ↔ ∃ v : Option String,
          pendingLookup t ps p.ParameterKey = some v
          ∧ (v.isNone && !(containsKey previous p.ParameterKey)) = false
          ∧ p = { ParameterKey := p.ParameterKey,
                  UsePreviousValue := v.isNone && containsKey previous p.ParameterKey,
                  ParameterValue := v } := by
  unfold update_params
  rw [mem_foldl_updateParamsStep]
  constructor
  · rintro ⟨kv, hm, hcond, hp⟩
    have hkey : p.ParameterKey = kv.1 := by rw [hp]
    have hlook : lookupKey (buildParametersDict t ps) kv.1 = some kv.2 :=
      lookupKey_eq_some_of_mem _ _ _ (nodup_keys_buildParametersDict t ps)
        (by exact (Prod.mk.eta (p := kv)) ▸ hm)
    refine ⟨kv.2, ?_, ?_, ?_⟩
    · rw [hkey, ← lookupKey_buildParametersDict, hlook]
    · rw [hkey]
      exact hcond
    · rw [hp]
  · rintro ⟨v, hv, hcond, hp⟩
    refine ⟨(p.ParameterKey, v), ?_, hcond, hp⟩
    apply mem_of_lookupKey_eq_some
    rw [lookupKey_buildParametersDict]
    exact hv

theorem map_key_update_params (t : Template) (ps previous : List (String × String)) :
    (update_params t ps previous).map Param.ParameterKey
      = (keys (buildParametersDict t ps)).filter
          (fun k => (lastLookup ps k).isSome || containsKey previous k) := by
  unfold update_params
  apply map_key_foldl_updateParamsStep
  intro kv hm
  have hlook : lookupKey (buildParametersDict t ps) kv.1 = some kv.2 :=
    lookupKey_eq_some_of_mem _ _ _ (nodup_keys_buildParametersDict t ps)
      (by exact (Prod.mk.eta (p := kv)) ▸ hm)
  rw [lookupKey_buildParametersDict] at hlook
  unfold pendingLookup at hlook
  cases hll : lastLookup ps kv.1 with
  | some v =>
    rw [hll] at hlook
    have hv : kv.2 = some v := by
      simpa using hlook.symm
    simp [hv]
  | none =>
    rw [hll] at hlook
    by_cases hmem : kv.1 ∈ t.parameters
    · simp only [if_pos hmem] at hlook
      have hv : kv.2 = none := by simpa using hlook.symm
      simp [hv, hll]
    · simp [if_neg hmem] at hlook

theorem pendingLookup_of_lastLookup_some (t : Template) (ps : List (String × String))
    (k : String) (v : String) (h : lastLookup ps k = some v) :
    pendingLookup t ps k = some (some v) := by
  unfold pendingLookup
  rw [h]

theorem pendingLookup_of_lastLookup_none (t : Template) (ps : List (String × String))
    (k : String) (h : lastLookup ps k = none) :
    pendingLookup t ps k = if k ∈ t.parameters then some none else none := by
  unfold pendingLookup
  rw [h]

/-! ## Claim theorems: parameter reconciliation -/

/-- C2: every entry emitted by `update_params` has one of the two shapes:
when the key's pending value is unset (no override for it), the key has an
entry in `previous` and the entry is `UsePreviousValue = true` with no
`ParameterValue` field; when the pending value is set to `v` (the last
override), the entry carries `ParameterValue = v` with
`UsePreviousValue = false`, regardless of `previous`. -/
theorem update_params_entry_shape (t : Template) (ps previous : List (String × String))
    (p : Param) (hp : p ∈ update_params t ps previous) :
    (lastLookup ps p.ParameterKey = none →
       containsKey previous p.ParameterKey = true
       ∧ p.UsePreviousValue = true ∧ p.ParameterValue = none)
    ∧ (∀ v : String, lastLookup ps p.ParameterKey = some v →
       p.UsePreviousValue = false ∧ p.ParameterValue = some v) := by
  obtain ⟨v, hpend, hcond, hshape⟩ := (mem_update_params t ps previous p).mp hp
  have hu : p.UsePreviousValue = (v.isNone && containsKey previous p.ParameterKey) :=
    congrArg Param.UsePreviousValue hshape
  have hval : p.ParameterValue = v :=
    congrArg Param.ParameterValue hshape
  constructor
  · intro hnone
    rw [pendingLookup_of_lastLookup_none t ps _ hnone] at hpend
    by_cases hmem : p.ParameterKey ∈ t.parameters
    · rw [if_pos hmem] at hpend
      have hvn : v = none := by
        injection hpend with h2
        exact h2.symm
      subst hvn
      simp only [Option.isNone_none, Bool.true_and] at hcond hu
      have hck : containsKey previous p.ParameterKey = true := by
        cases hck2 : containsKey previous p.ParameterKey
        · rw [hck2] at hcond
          simp at hcond
        · rfl
      refine ⟨hck, ?_, hval⟩
      rw [hu, hck]
    · rw [if_neg hmem] at hpend
      simp at hpend
  · intro w hw
    rw [pendingLookup_of_lastLookup_some t ps _ w hw] at hpend
    have hvw : v = some w := by
      injection hpend with h2
      exact h2.symm
    subst hvw
    simp only [Option.isNone_some, Bool.false_and] at hu
    exact ⟨hu, by rw [hval]⟩

/-- Witness for C2 at `declared = [A]`, no override, `previous = [A ↦ x]`:
the single emitted entry is `{A, UsePreviousValue := true}` with no value. -/
theorem update_params_entry_shape_witness :
    containsKey [("A", "x")] "A" = true
    ∧ (Param.mk "A" true none).UsePreviousValue = true
    ∧ (Param.mk "A" true none).ParameterValue = none :=
  (update_params_entry_shape ⟨["A"], ""⟩ [] [("A", "x")]
    (Param.mk "A" true none) (by decide)).1 (by decide)

/-- C3: a key whose pending value is unset (no override) and which has no
entry in `previous` is omitted entirely from the reconciled output.  (At
`declared = [A,B]`, no overrides, empty previous, the output is therefore
the empty list — see the witness.) -/
theorem update_params_omits_unset (t : Template) (ps previous : List (String × String))
    (key : String) (h1 : lastLookup ps key = none)
    (h2 : containsKey previous key = false) :
    ∀ p ∈ update_params t ps previous, p.ParameterKey ≠ key := by
  intro p hp hkey
  obtain ⟨v, hpend, hcond, -⟩ := (mem_update_params t ps previous p).mp hp
  rw [hkey] at hpend hcond
  rw [pendingLookup_of_lastLookup_none t ps key h1] at hpend
  by_cases hmem : key ∈ t.parameters
  · rw [if_pos hmem] at hpend
    injection hpend with h3
    rw [← h3] at hcond
    simp [h2] at hcond
  · rw [if_neg hmem] at hpend
    simp at hpend

/-- Witness for C3: with `declared = [A,B]`, no overrides and empty
previous, the reconciled output is the empty list; and at
`declared = [A,B]`, `overrides = [(B,1)]`, empty previous, the emitted
entry's key is not the unset key `A`. -/
theorem update_params_omits_unset_witness :
    update_params ⟨["A", "B"], ""⟩ [] [] = []
    ∧ (Param.mk "B" false (some "1")).ParameterKey ≠ "A" :=
  ⟨by decide,
   update_params_omits_unset ⟨["A", "B"], ""⟩ [("B", "1")] [] "A" (by decide) (by decide)
     (Param.mk "B" false (some "1")) (by decide)⟩

/-- C7: every override pair takes effect: if the last override for `key` in
input order carries value `v`, then the entry `{key, value := v,
use_previous := false}` is emitted, with no requirement that `key` be among
the template's declared parameter names. -/
theorem update_params_override_emitted (t : Template)
    (ps previous : List (String × String)) (key v : String)
    (h : lastLookup ps key = some v) :
    Param.mk key false (some v) ∈ update_params t ps previous := by
  apply (mem_update_params t ps previous _).mpr
  refine ⟨some v, ?_, ?_, ?_⟩
  · exact pendingLookup_of_lastLookup_some t ps key v h
  · simp
  · simp

/-- Witness for C7 at `declared = []` (the key `Z` is not declared) and two
overrides for `Z`, the later one carrying `"1"`: the emitted entry holds the
last value. -/
theorem update_params_override_emitted_witness :
    Param.mk "Z" false (some "1") ∈ update_params ⟨[], ""⟩ [("Z", "0"), ("Z", "1")] [] :=
  update_params_override_emitted ⟨[], ""⟩ [("Z", "0"), ("Z", "1")] [] "Z" "1" (by decide)

/-- C8: `update_params` is a deterministic pure function (identical inputs
give identical output), and the emitted key order is the declared parameter
names first, in declared order (first occurrence), followed by the
override-only keys in first-occurrence input order, each kept exactly when
it is overridden or present in `previous`. -/
theorem update_params_deterministic_order (t : Template)
    (ps previous : List (String × String)) :
    update_params t ps previous = update_params t ps previous
    ∧ (update_params t ps previous).map Param.ParameterKey
      = (dedupKeys t.parameters
          ++ (dedupKeys (ps.map Prod.fst)).filter (fun k => !(k ∈ t.parameters : Bool))).filter
          (fun k => (lastLookup ps k).isSome || containsKey previous k) := by
  refine ⟨rfl, ?_⟩
  rw [map_key_update_params, keys_buildParametersDict]

/-! ## Event tailer lemmas -/

theorem mem_fst_foldl_eventsStep (now : Int) :
    ∀ (l : List StackEvent) (seen : List String) (out : List StackEvent) (id : String),
    (id ∈ (l.foldl (eventsStep now) (seen, out)).1
      ↔ id ∈ seen ∨ ∃ e ∈ l, ¬(e.Timestamp < now - 2) ∧ e.EventId = id) := by
  intro l
  induction l with
  | nil => intro seen out id; simp
  | cons e rest ih =>
    intro seen out id
    rw [List.foldl_cons]
    by_cases ht : e.Timestamp < now - 2
    · rw [show eventsStep now (seen, out) e = (seen, out) from by
        simp [eventsStep, ht]]
      rw [ih]
      simp only [List.mem_cons]
      constructor
      · rintro (h | ⟨e2, hm, hcond, hid⟩)
        · exact Or.inl h
        · exact Or.inr ⟨e2, Or.inr hm, hcond, hid⟩
      · rintro (h | ⟨e2, hm, hcond, hid⟩)
        · exact Or.inl h
        · rcases hm with h1 | h1
          · subst h1
            exact absurd ht hcond
          · exact Or.inr ⟨e2, h1, hcond, hid⟩
    · by_cases hmem : e.EventId ∈ seen
      · rw [show eventsStep now (seen, out) e = (seen, out) from by
          simp [eventsStep, ht, hmem]]
        rw [ih]
        simp only [List.mem_cons]
        constructor
        · rintro (h | ⟨e2, hm, hcond, hid⟩)
          · exact Or.inl h
          · exact Or.inr ⟨e2, Or.inr hm, hcond, hid⟩
        · rintro (h | ⟨e2, hm, hcond, hid⟩)
          · exact Or.inl h
          · rcases hm with h1 | h1
            · subst h1
              exact Or.inl (hid ▸ hmem)
            · exact Or.inr ⟨e2, h1, hcond, hid⟩
      · rw [show eventsStep now (seen, out) e = (seen ++ [e.EventId], out ++ [e]) from by
          simp [eventsStep, ht, hmem]]
        rw [ih]
        simp only [List.mem_append, List.mem_singleton, List.mem_cons]
        constructor
        · rintro ((h | h | h0) | ⟨e2, hm, hcond, hid⟩)
          · exact Or.inl h
          · exact Or.inr ⟨e, Or.inl rfl, ht, h.symm⟩
          · exact absurd h0 (List.not_mem_nil id)
          · exact Or.inr ⟨e2, Or.inr hm, hcond, hid⟩
        · rintro (h | ⟨e2, hm, hcond, hid⟩)
          · exact Or.inl (Or.inl h)
          · rcases hm with h1 | h1
            · subst h1
              exact Or.inl (Or.inr (Or.inl hid.symm))
            · exact Or.inr ⟨e2, h1, hcond, hid⟩

theorem foldl_eventsStep_spec (now : Int) :
    ∀ (l : List StackEvent) (seen : List String) (out : List StackEvent),
    (∀ x ∈ seen, x ∈ (l.foldl (eventsStep now) (seen, out)).1)
    ∧ ∃ new, (l.foldl (eventsStep now) (seen, out)).2 = out ++ new
        ∧ (new.map StackEvent.EventId).Nodup
        ∧ ∀ e ∈ new, e.EventId ∉ seen
            ∧ e.EventId ∈ (l.foldl (eventsStep now) (seen, out)).1
            ∧ ¬(e.Timestamp < now - 2) := by
  intro l
  induction l with
  | nil =>
    intro seen out
    exact ⟨fun x hx => hx, [], by simp, by simp, by simp⟩
  | cons e rest ih =>
    intro seen out
    rw [List.foldl_cons]
    by_cases ht : e.Timestamp < now - 2
    · rw [show eventsStep now (seen, out) e = (seen, out) from by
        simp [eventsStep, ht]]
      exact ih seen out
    · by_cases hmem : e.EventId ∈ seen
      · rw [show eventsStep now (seen, out) e = (seen, out) from by
          simp [eventsStep, ht, hmem]]
        exact ih seen out
      · rw [show eventsStep now (seen, out) e = (seen ++ [e.EventId], out ++ [e]) from by
          simp [eventsStep, ht, hmem]]
        obtain ⟨hmono, new, hout, hnodup, hprops⟩ := ih (seen ++ [e.EventId]) (out ++ [e])
        refine ⟨?_, e :: new, ?_, ?_, ?_⟩
        · intro x hx
          exact hmono x (List.mem_append_left _ hx)
        · rw [hout, List.append_assoc]
          rfl
        · simp only [List.map_cons, List.nodup_cons]
          refine ⟨?_, hnodup⟩
          intro hin
          obtain ⟨e2, hm2, hid2⟩ := List.mem_map.mp hin
          have := (hprops e2 hm2).1
          rw [hid2] at this
          exact this (List.mem_append_right _ (List.mem_singleton.mpr rfl))
        · intro e2 hm2
          rcases List.mem_cons.mp hm2 with h1 | h1
          · subst h1
            exact ⟨hmem, hmono e2.EventId
              (List.mem_append_right _ (List.mem_singleton.mpr rfl)), ht⟩
          · obtain ⟨hnot, hin, hts⟩ := hprops e2 h1
            exact ⟨fun hx => hnot (List.mem_append_left _ hx), hin, hts⟩

theorem passEvents_spec (now : Int) (seen : List String) (events : List StackEvent) :
    (∀ x ∈ seen, x ∈ (passEvents now seen events).1)
    ∧ (((passEvents now seen events).2.map StackEvent.EventId).Nodup
    ∧ ∀ e ∈ (passEvents now seen events).2,
        e.EventId ∉ seen ∧ e.EventId ∈ (passEvents now seen events).1
        ∧ ¬(e.Timestamp < now - 2)) := by
  obtain ⟨hmono, new, hout, hnodup, hprops⟩ :=
    foldl_eventsStep_spec now events.reverse seen []
  unfold passEvents
  rw [List.nil_append] at hout
  exact ⟨hmono, hout ▸ hnodup, hout ▸ hprops⟩

theorem eventsLoop_spec (now : Int) :
    ∀ (polls : List (String × List StackEvent)) (seen : List String),
    (((eventsLoop now seen polls).emitted.map StackEvent.EventId).Nodup)
    ∧ (∀ e ∈ (eventsLoop now seen polls).emitted,
        e.EventId ∉ seen ∧ ¬(e.Timestamp < now - 2))
    ∧ (∀ x ∈ seen, x ∈ (eventsLoop now seen polls).seen)
    ∧ (∀ e ∈ (eventsLoop now seen polls).emitted,
        e.EventId ∈ (eventsLoop now seen polls).seen) := by
  intro polls
  induction polls with
  | nil =>
    intro seen
    simp [eventsLoop]
  | cons poll rest ih =>
    intro seen
    obtain ⟨status, events⟩ := poll
    obtain ⟨hpm, hpn, hpp⟩ := passEvents_spec now seen events
    by_cases hterm : strEndsWith status "COMPLETE" = true
    · rw [show eventsLoop now seen ((status, events) :: rest)
          = { emitted := (passEvents now seen events).2,
              seen := (passEvents now seen events).1,
              sleeps := 0, finished := true } from by
        simp [eventsLoop, hterm]]
      refine ⟨hpn, ?_, hpm, ?_⟩
      · intro e he
        exact ⟨(hpp e he).1, (hpp e he).2.2⟩
      · intro e he
        exact (hpp e he).2.1
    · obtain ⟨hrn, hre, hrm, hrs⟩ := ih (passEvents now seen events).1
      rw [show eventsLoop now seen ((status, events) :: rest)
          = { emitted := (passEvents now seen events).2
                ++ (eventsLoop now (passEvents now seen events).1 rest).emitted,
              seen := (eventsLoop now (passEvents now seen events).1 rest).seen,
              sleeps := (eventsLoop now (passEvents now seen events).1 rest).sleeps + 1,
              finished := (eventsLoop now (passEvents now seen events).1 rest).finished }
          from by
        simp [eventsLoop, hterm]]
      refine ⟨?_, ?_, ?_, ?_⟩
      · rw [List.map_append]
        apply List.Nodup.append hpn hrn
        intro x hx1 hx2
        obtain ⟨e1, he1, hid1⟩ := List.mem_map.mp hx1
        obtain ⟨e2, he2, hid2⟩ := List.mem_map.mp hx2
        have h1 : x ∈ (passEvents now seen events).1 := hid1 ▸ (hpp e1 he1).2.1
        have h2 : x ∉ (passEvents now seen events).1 := hid2 ▸ (hre e2 he2).1
        exact h2 h1
      · intro e he
        rcases List.mem_append.mp he with h1 | h1
        · exact ⟨(hpp e h1).1, (hpp e h1).2.2⟩
        · exact ⟨fun hx => (hre e h1).1 (hpm _ hx), (hre e h1).2⟩
      · intro x hx
        exact hrm x (hpm x hx)
      · intro e he
        rcases List.mem_append.mp he with h1 | h1
        · exact hrm _ ((hpp e h1).2.1)
        · exact hrs e h1

theorem eventsLoop_cons_term (now : Int) (seen : List String) (status : String)
    (events : List StackEvent) (rest : List (String × List StackEvent))
    (h : strEndsWith status "COMPLETE" = true) :
    eventsLoop now seen ((status, events) :: rest)
      = { emitted := (passEvents now seen events).2,
          seen := (passEvents now seen events).1,
          sleeps := 0, finished := true } := by
  simp [eventsLoop, h]

theorem eventsLoop_cons_nonterm (now : Int) (seen : List String) (status : String)
    (events : List StackEvent) (rest : List (String × List StackEvent))
    (h : ¬(strEndsWith status "COMPLETE" = true)) :
    eventsLoop now seen ((status, events) :: rest)
      = { emitted := (passEvents now seen events).2
            ++ (eventsLoop now (passEvents now seen events).1 rest).emitted,
          seen := (eventsLoop now (passEvents now seen events).1 rest).seen,
          sleeps := (eventsLoop now (passEvents now seen events).1 rest).sleeps + 1,
          finished := (eventsLoop now (passEvents now seen events).1 rest).finished } := by
  simp [eventsLoop, h]

theorem eventsLoop_complete_spec (now : Int) :
    ∀ (polls : List (String × List StackEvent)) (seen : List String),
    polls.any (fun q => strEndsWith q.1 "COMPLETE") = true →
    (eventsLoop now seen polls).finished = true
    ∧ (eventsLoop now seen polls).sleeps
        = polls.findIdx (fun q => strEndsWith q.1 "COMPLETE")
    ∧ eventsLoop now seen polls
        = eventsLoop now seen
            (polls.take (polls.findIdx (fun q => strEndsWith q.1 "COMPLETE") + 1)) := by
  intro polls
  induction polls with
  | nil => intro seen h; simp at h
  | cons poll rest ih =>
    intro seen h
    obtain ⟨status, events⟩ := poll
    by_cases hterm : strEndsWith status "COMPLETE" = true
    · have hidx : ((status, events) :: rest).findIdx
          (fun q => strEndsWith q.1 "COMPLETE") = 0 := by
        rw [List.findIdx_cons]
        simp [hterm]
      rw [hidx, eventsLoop_cons_term now seen status events rest hterm]
      refine ⟨rfl, rfl, ?_⟩
      rw [List.take_succ_cons, List.take_zero,
        eventsLoop_cons_term now seen status events [] hterm]
    · have hany : rest.any (fun q => strEndsWith q.1 "COMPLETE") = true := by
        simp only [List.any_cons] at h
        rcases Bool.or_eq_true_iff.mp h with h1 | h1
        · exact absurd h1 hterm
        · exact h1
      obtain ⟨hf, hs, he⟩ := ih (passEvents now seen events).1 hany
      have hidx : ((status, events) :: rest).findIdx
          (fun q => strEndsWith q.1 "COMPLETE")
          = rest.findIdx (fun q => strEndsWith q.1 "COMPLETE") + 1 := by
        rw [List.findIdx_cons]
        simp [hterm]
      rw [hidx, eventsLoop_cons_nonterm now seen status events rest hterm]
      refine ⟨hf, ?_, ?_⟩
      · simp only []
        rw [hs]
      · rw [List.take_succ_cons,
          eventsLoop_cons_nonterm now seen status events _ hterm, ← he]

/-! ## Claim theorems: event tailing -/

/-- C1 counterexample: an event whose timestamp precedes `session_start - 2`
is examined by the first pass of the poll loop but its `event_id` is NOT
added to the `seen` set (the `continue` taken on the timestamp check skips
the `seen.add` as well): with session start 100 and a single examined event
timestamped 0, the session's `seen` set stays empty. -/
theorem events_timestamp_skip_not_seen_counterexample :
    (StackEvent.mk "e1" 0 "r" "CREATE_IN_PROGRESS" none).Timestamp < 100 - 2
    ∧ (_events 100
        [("CREATE_IN_PROGRESS", [StackEvent.mk "e1" 0 "r" "CREATE_IN_PROGRESS" none])]).seen
      = [] := by
  exact ⟨by decide, by decide⟩

/-- C1 (amended): after one pass of the poll loop, the `seen` set holds
exactly the ids it held before plus the ids of this pass's events that
passed the timestamp check — an event skipped only because its id was
already seen is (re-)added, while a timestamp-skipped event is not added and
is therefore re-examined (and timestamp-skipped again) on later polls. -/
theorem events_pass_seen_iff (now : Int) (seen : List String)
    (events : List StackEvent) (id : String) :
    id ∈ (passEvents now seen events).1
      ↔ id ∈ seen ∨ ∃ e ∈ events, ¬(e.Timestamp < now - 2) ∧ e.EventId = id := by
  unfold passEvents
  rw [mem_fst_foldl_eventsStep]
  constructor
  · rintro (h | ⟨e, hm, hcond, hid⟩)
    · exact Or.inl h
    · exact Or.inr ⟨e, List.mem_reverse.mp hm, hcond, hid⟩
  · rintro (h | ⟨e, hm, hcond, hid⟩)
    · exact Or.inl h
    · exact Or.inr ⟨e, List.mem_reverse.mpr hm, hcond, hid⟩

/-- C4: within one tail session, no `event_id` is emitted twice (the emitted
ids are pairwise distinct across all polls), and no emitted event has a
timestamp more than 2 seconds before the session start, on any poll
including the first. -/
theorem events_dedup_and_window (now : Int) (polls : List (String × List StackEvent)) :
    (((_events now polls).emitted.map StackEvent.EventId).Nodup)
    ∧ ∀ e ∈ (_events now polls).emitted, now - 2 ≤ e.Timestamp := by
  obtain ⟨hnodup, hprops, -, -⟩ := eventsLoop_spec now polls []
  refine ⟨hnodup, ?_⟩
  intro e he
  exact Int.not_lt.mp (hprops e he).2

/-- C5: as soon as a poll returns a status ending in `COMPLETE`, the loop
finishes, the number of sleeps equals the index of that first terminal poll
(no sleep follows the terminal pass), and the whole session equals the
session truncated just after the first terminal poll (that pass's events are
still emitted, later polls are never consulted). -/
theorem events_terminates_on_complete (now : Int)
    (polls : List (String × List StackEvent))
    (h : polls.any (fun q => strEndsWith q.1 "COMPLETE") = true) :
    (_events now polls).finished = true
    ∧ (_events now polls).sleeps
        = polls.findIdx (fun q => strEndsWith q.1 "COMPLETE")
    ∧ _events now polls
        = _events now
            (polls.take (polls.findIdx (fun q => strEndsWith q.1 "COMPLETE") + 1)) :=
  eventsLoop_complete_spec now polls [] h

/-- Witness for C5: a two-poll trace whose second status is
`UPDATE_ROLLBACK_COMPLETE`: the session finishes, sleeps exactly once, and
ignores the third poll. -/
theorem events_terminates_on_complete_witness :
    (_events 100
        [("CREATE_IN_PROGRESS", []),
         ("UPDATE_ROLLBACK_COMPLETE", [StackEvent.mk "e1" 101 "r" "s" none]),
         ("DELETE_IN_PROGRESS", [])]).finished = true
    ∧ (_events 100
        [("CREATE_IN_PROGRESS", []),
         ("UPDATE_ROLLBACK_COMPLETE", [StackEvent.mk "e1" 101 "r" "s" none]),
         ("DELETE_IN_PROGRESS", [])]).sleeps
        = List.findIdx (fun q => strEndsWith q.1 "COMPLETE")
            [("CREATE_IN_PROGRESS", []),
             ("UPDATE_ROLLBACK_COMPLETE", [StackEvent.mk "e1" 101 "r" "s" none]),
             ("DELETE_IN_PROGRESS", [])]
    ∧ _events 100
        [("CREATE_IN_PROGRESS", []),
         ("UPDATE_ROLLBACK_COMPLETE", [StackEvent.mk "e1" 101 "r" "s" none]),
         ("DELETE_IN_PROGRESS", [])]
      = _events 100
          (List.take
            (List.findIdx (fun q => strEndsWith q.1 "COMPLETE")
              [("CREATE_IN_PROGRESS", []),
               ("UPDATE_ROLLBACK_COMPLETE", [StackEvent.mk "e1" 101 "r" "s" none]),
               ("DELETE_IN_PROGRESS", [])] + 1)
            [("CREATE_IN_PROGRESS", []),
             ("UPDATE_ROLLBACK_COMPLETE", [StackEvent.mk "e1" 101 "r" "s" none]),
             ("DELETE_IN_PROGRESS", [])]) :=
  events_terminates_on_complete 100
    [("CREATE_IN_PROGRESS", []),
     ("UPDATE_ROLLBACK_COMPLETE", [StackEvent.mk "e1" 101 "r" "s" none]),
     ("DELETE_IN_PROGRESS", [])] (by decide)

/-! ## Claim theorems: orchestration, publishing, request building -/

/-- C6: when the previous-parameter lookup fails (the stack is not found, or
its status fails the assertion), `get_stack_definition` swallows the failure
and proceeds: a definition is still produced (when the upload succeeds) and
its parameters are reconciled against an empty previous-parameter mapping. -/
theorem get_stack_definition_swallows_lookup_failure
    (locationOf : String → Option String) (s3 : S3State) (t : Template)
    (name : String) (parameter : List (String × String)) (capability : Option String)
    (bucket : String) (d : DescribeResult) (e : LookupError) (loc : String)
    (herr : _parameters d = Except.error e)
    (hloc : locationOf bucket = some loc) :
    ((get_stack_definition locationOf s3 t name parameter capability bucket d).2).isSome
      = true
    ∧ ∀ defn,
        (get_stack_definition locationOf s3 t name parameter capability bucket d).2
          = some defn →
        defn.Parameters = update_params t parameter [] := by
  constructor
  · simp [get_stack_definition, upload_template_to_s3, put_object, hloc]
  · intro defn hdefn
    simp [get_stack_definition, upload_template_to_s3, put_object, hloc, herr] at hdefn
    rw [← hdefn]

/-- Witness for C6: a `ClientError` from `describe_stacks` (stack not found)
is swallowed; the produced definition reconciles against empty previous
parameters, so the declared-only key `A` is omitted. -/
theorem get_stack_definition_swallows_lookup_failure_witness :
    ((get_stack_definition (fun _ => some "eu") ⟨[]⟩ ⟨["A"], "tj"⟩ "st" [] none "bk"
        DescribeResult.clientError).2).isSome = true
    ∧ (StackDefinition.mk "st" "https://s3-eu.amazonaws.com/bk/st.template" [] none).Parameters
        = update_params ⟨["A"], "tj"⟩ [] [] := by
  have h := get_stack_definition_swallows_lookup_failure
    (fun _ => some "eu") ⟨[]⟩ ⟨["A"], "tj"⟩ "st" [] none "bk"
    DescribeResult.clientError LookupError.clientError "eu" rfl rfl
  exact ⟨h.1, h.2 (StackDefinition.mk "st" "https://s3-eu.amazonaws.com/bk/st.template" [] none)
    (by decide)⟩

/-- C9: the built request carries no `Capabilities` field at all when no
capability is selected, and a single-element capability list when one is. -/
theorem get_stack_definition_capability_field
    (locationOf : String → Option String) (s3 : S3State) (t : Template)
    (name : String) (parameter : List (String × String)) (bucket : String)
    (d : DescribeResult) :
    (∀ defn,
        (get_stack_definition locationOf s3 t name parameter none bucket d).2
          = some defn →
        defn.Capabilities = none)
    ∧ (∀ c defn,
        (get_stack_definition locationOf s3 t name parameter (some c) bucket d).2
          = some defn →
        defn.Capabilities = some [c]) := by
  cases hloc : locationOf bucket with
  | none =>
    constructor
    · intro defn hdefn
      simp [get_stack_definition, upload_template_to_s3, put_object, hloc] at hdefn
    · intro c defn hdefn
      simp [get_stack_definition, upload_template_to_s3, put_object, hloc] at hdefn
  | some loc =>
    constructor
    · intro defn hdefn
      simp [get_stack_definition, upload_template_to_s3, put_object, hloc] at hdefn
      rw [← hdefn]
    · intro c defn hdefn
      simp [get_stack_definition, upload_template_to_s3, put_object, hloc] at hdefn
      rw [← hdefn]

/-- Witness for C9: with no capability the built definition has no
capability field; with `CAPABILITY_IAM` it has the one-element list. -/
theorem get_stack_definition_capability_field_witness :
    (StackDefinition.mk "st" "https://s3-eu.amazonaws.com/bk/st.template" [] none).Capabilities
      = none
    ∧ (StackDefinition.mk "st" "https://s3-eu.amazonaws.com/bk/st.template" []
        (some ["CAPABILITY_IAM"])).Capabilities = some ["CAPABILITY_IAM"] := by
  have h := get_stack_definition_capability_field
    (fun _ => some "eu") ⟨[]⟩ ⟨[], "tj"⟩ "st" [] "bk" DescribeResult.clientError
  exact ⟨h.1 _ (by decide), h.2 "CAPABILITY_IAM" _ (by decide)⟩

/-- C10: template publishing is not atomic on error: the blob is written
before the bucket location is resolved, so when location resolution fails
(the call raises and no URL is produced) the blob for key
`"{stack_name}.template"` is nevertheless present in the store. -/
theorem upload_template_writes_before_location
    (locationOf : String → Option String) (s3 : S3State)
    (stack_name template template_bucket : String)
    (h : locationOf template_bucket = none) :
    (upload_template_to_s3 locationOf s3 stack_name template template_bucket).2 = none
    ∧ (template_bucket, stack_name ++ ".template", template)
        ∈ (upload_template_to_s3 locationOf s3 stack_name template template_bucket).1.objects := by
  unfold upload_template_to_s3 put_object
  rw [h]
  exact ⟨rfl, by simp⟩

/-- Witness for C10: with a store that cannot resolve any location, the
publish of stack `st` fails but the blob `(bk, st.template, body)` has been
written. -/
theorem upload_template_writes_before_location_witness :
    (upload_template_to_s3 (fun _ => none) ⟨[]⟩ "st" "body" "bk").2 = none
    ∧ ("bk", "st" ++ ".template", "body")
        ∈ (upload_template_to_s3 (fun _ => none) ⟨[]⟩ "st" "body" "bk").1.objects :=
  upload_template_writes_before_location (fun _ => none) ⟨[]⟩ "st" "body" "bk" rfl
